import Mathlib

/-!
Shallow embedding of the compaction core of the RisingWave Hummock storage engine
(`src/storage/src/hummock/compactor/mod.rs`, `src/storage/src/hummock/sstable/multi_builder.rs`,
`src/storage/src/hummock/local_version.rs`, `src/storage/src/dedup_pk_cell_based_row_serializer.rs`),
together with proofs about the embedded operations.

Machine integers (`u64` epochs, `i32` column ids) are modelled as `Nat`/`Int`; the embedded code
performs only comparisons and no wrapping arithmetic on them.  Byte strings are `List Nat`.
Asynchronous code is modelled by explicit state passing: the iterator of
`compact_and_build_sst` becomes the list of entries it would yield in order, and the effect of
every `add_full_key` call is recorded in a trace.
-/

/-- Byte-string comparison used by `VersionedComparator`: lexicographic, with a proper prefix
ordered first.  Returns `true` iff `a` sorts strictly before `b`. -/
def bytesLtB : List Nat → List Nat → Bool
  | [], [] => false
  | [], _ :: _ => true
  | _ :: _, [] => false
  | a :: as, b :: bs => decide (a < b) || (decide (a = b) && bytesLtB as bs)

theorem bytesLtB_irrefl (a : List Nat) : bytesLtB a a = false := by
  induction a with
  | nil => rfl
  | cons x xs ih => simp [bytesLtB, ih]

theorem bytesLtB_trans (a : List Nat) :
    ∀ b c, bytesLtB a b = true → bytesLtB b c = true → bytesLtB a c = true := by
  induction a with
  | nil =>
    intro b c hab hbc
    cases b <;> cases c <;> simp_all [bytesLtB]
  | cons x xs ih =>
    intro b c hab hbc
    cases b with
    | nil => simp [bytesLtB] at hab
    | cons y ys =>
      cases c with
      | nil => simp [bytesLtB] at hbc
      | cons z zs =>
        simp only [bytesLtB, Bool.or_eq_true, Bool.and_eq_true, decide_eq_true_eq] at *
        rcases hab with h | ⟨h, hab⟩ <;> rcases hbc with h2 | ⟨h2, hbc⟩
        · exact Or.inl (h.trans h2)
        · exact Or.inl (h2 ▸ h)
        · exact Or.inl (h ▸ h2)
        · exact Or.inr ⟨h.trans h2, ih _ _ hab hbc⟩

theorem bytesLtB_antisymm (a : List Nat) :
    ∀ b, bytesLtB a b = false → bytesLtB b a = false → a = b := by
  induction a with
  | nil =>
    intro b hab _
    cases b <;> simp_all [bytesLtB]
  | cons x xs ih =>
    intro b hab hba
    cases b with
    | nil => simp [bytesLtB] at hba
    | cons y ys =>
      simp only [bytesLtB, Bool.or_eq_false_iff, Bool.and_eq_false_iff,
        decide_eq_false_iff_not] at hab hba
      obtain ⟨hxy, hab2⟩ := hab
      obtain ⟨hyx, hba2⟩ := hba
      have hxeq : x = y := by omega
      subst hxeq
      rcases hab2 with h | h
      · exact absurd rfl (by exact_mod_cast h)
      · rcases hba2 with h2 | h2
        · exact absurd rfl (by exact_mod_cast h2)
        · exact congrArg (x :: ·) (ih _ h h2)

/-- A full key: `user_key || epoch` (the epoch is a big-endian `u64` suffix in the source; here it
is kept as a separate field of the decoded form). -/
structure FullKey where
  userKey : List Nat
  epoch : Nat
deriving DecidableEq, Repr

/-- `VersionedComparator::compare_key a b = Less`: user keys ascending, then epochs descending
(a newer epoch sorts first within the same user key). -/
def fullKeyLtB (a b : FullKey) : Bool :=
  bytesLtB a.userKey b.userKey || (decide (a.userKey = b.userKey) && decide (b.epoch < a.epoch))

/-- A hummock value: `Put(bytes)` or the `Delete` tombstone. -/
inductive HummockValue where
  | put (v : List Nat)
  | delete
deriving DecidableEq, Repr

/-- `HummockValue::is_delete`. -/
def HummockValue.is_delete : HummockValue → Bool
  | .delete => true
  | .put _ => false

/-- One full-key/value pair yielded by the merge iterator. -/
structure Entry where
  key : FullKey
  val : HummockValue
deriving DecidableEq, Repr

/-- Strict full-key order on iterator entries: `(user_key ASC, epoch DESC)`. -/
def entryLt (a b : Entry) : Prop := fullKeyLtB a.key b.key = true

instance : DecidableRel entryLt := fun a b => by
  unfold entryLt; infer_instance

theorem entryLt_trans {a b c : Entry} (hab : entryLt a b) (hbc : entryLt b c) : entryLt a c := by
  unfold entryLt fullKeyLtB at *
  simp only [Bool.or_eq_true, Bool.and_eq_true, decide_eq_true_eq] at *
  rcases hab with h | ⟨h, he⟩ <;> rcases hbc with h2 | ⟨h2, he2⟩
  · exact Or.inl (bytesLtB_trans _ _ _ h h2)
  · exact Or.inl (h2 ▸ h)
  · exact Or.inl (h ▸ h2)
  · exact Or.inr ⟨h.trans h2, by omega⟩

/-- Two distinct positions of a strictly sorted run cannot carry the same user key and epoch. -/
theorem entryLt_of_eq_false {a b : Entry} (huk : a.key.userKey = b.key.userKey)
    (hep : a.key.epoch = b.key.epoch) : ¬ entryLt a b := by
  unfold entryLt fullKeyLtB
  simp only [Bool.or_eq_true, Bool.and_eq_true, decide_eq_true_eq, not_or]
  constructor
  · rw [huk]; simp [bytesLtB_irrefl]
  · intro h; omega

/-- `KeyRange { left, right, inf }` from the compaction task; an empty byte string bound is
modelled as `none`. -/
structure KeyRange where
  left : Option FullKey
  right : Option FullKey
  inf : Bool

/-- The record of one loop iteration of `compact_and_build_sst`: the entry examined, the
`is_new_user_key` flag computed for it, and whether it was added to the builder (not dropped). -/
structure TraceItem where
  entry : Entry
  isNewUserKey : Bool
  kept : Bool
deriving DecidableEq, Repr

/-- `is_new_user_key = last_key.is_empty() || !same_user_key(iter_key, last_key)`. -/
def isNewUserKeyB (lastKey : Option FullKey) (k : FullKey) : Bool :=
  match lastKey with
  | none => true
  | some lk => !(decide (k.userKey = lk.userKey))

/-- The split-exhausted test: `kr.right` non-empty and `compare_key(iter_key, kr.right) != Less`. -/
def hitRightB (right : Option FullKey) (k : FullKey) : Bool :=
  match right with
  | none => false
  | some r => !(fullKeyLtB k r)

/-- The first drop rule of the loop: `epoch <= watermark && gc_delete_keys && value.is_delete()`. -/
def collapsedTombstone (gc : Bool) (wm : Nat) (e : Entry) : Bool :=
  decide (e.key.epoch ≤ wm) && gc && e.val.is_delete

/-- The complete drop decision for one entry, given the `watermark_can_see_last_key` value after
the `is_new_user_key` reset (`wcsl1`):  tombstone collapse, shadowing below the watermark, then
the compaction filter (queried only when not yet dropped, as in the source). -/
def dropDecision (gc : Bool) (wm : Nat) (filter : FullKey → Bool) (wcsl1 : Bool) (e : Entry) :
    Bool :=
  let d := collapsedTombstone gc wm e || (decide (e.key.epoch < wm) && wcsl1)
  if !d && filter e.key then true else d

theorem dropDecision_eq (gc : Bool) (wm : Nat) (filter : FullKey → Bool) (wcsl1 : Bool)
    (e : Entry) :
    dropDecision gc wm filter wcsl1 e =
      (collapsedTombstone gc wm e || (decide (e.key.epoch < wm) && wcsl1) || filter e.key) := by
  unfold dropDecision
  cases collapsedTombstone gc wm e <;> cases (decide (e.key.epoch < wm) && wcsl1) <;>
    cases filter e.key <;> simp

/-- The main loop of `compact_and_build_sst`, embedded over the list of entries the iterator will
yield.  State: `lastKey` is the `last_key` buffer (empty ↦ `none`), `wcsl` is
`watermark_can_see_last_key`.  The returned trace records, for each examined entry, the
`is_new_user_key` flag and whether `add_full_key` was invoked for it; the loop `break` on the
right bound of the key range ends the trace. -/
def compactLoop (gc : Bool) (wm : Nat) (filter : FullKey → Bool) (right : Option FullKey) :
    List Entry → Option FullKey → Bool → List TraceItem
  | [], _, _ => []
  | e :: rest, lastKey, wcsl =>
    let isNew := isNewUserKeyB lastKey e.key
    if isNew && hitRightB right e.key then
      []
    else
      let wcsl1 := if isNew then false else wcsl
      let drop := dropDecision gc wm filter wcsl1 e
      ⟨e, isNew, !drop⟩ ::
        compactLoop gc wm filter right rest (if isNew then some e.key else lastKey)
          (if e.key.epoch ≤ wm then true else wcsl1)

/-- `iter.seek(kr.left)` on a sorted stream positions at the first key not before `left`;
an empty `left` rewinds. -/
def seekTo (left : Option FullKey) (input : List Entry) : List Entry :=
  match left with
  | none => input
  | some l => input.dropWhile (fun e => fullKeyLtB e.key l)

/-- `Compactor::compact_and_build_sst`, as the trace of its loop over the entries the iterator
yields in order. -/
def compact_and_build_sst (kr : KeyRange) (input : List Entry) (gc : Bool) (wm : Nat)
    (filter : FullKey → Bool) : List TraceItem :=
  compactLoop gc wm filter kr.right (seekTo kr.left input) none false

/-- The entries actually handed to `CapacitySplitTableBuilder::add_full_key` (the output of the
compaction, before size-based splitting). -/
def keptEntries (tr : List TraceItem) : List Entry :=
  (tr.filter (fun t => t.kept)).map (fun t => t.entry)

/-- The `add_full_key` calls made by the loop: entry together with `is_new_user_key`, which is
passed as `allow_split`. -/
def addFullKeyCalls (tr : List TraceItem) : List (Entry × Bool) :=
  (tr.filter (fun t => t.kept)).map (fun t => (t.entry, t.isNewUserKey))

theorem compactLoop_entry_mem (gc : Bool) (wm : Nat) (filter : FullKey → Bool)
    (right : Option FullKey) :
    ∀ (rem : List Entry) (lastKey : Option FullKey) (wcsl : Bool) (it : TraceItem),
      it ∈ compactLoop gc wm filter right rem lastKey wcsl → it.entry ∈ rem := by
  intro rem
  induction rem with
  | nil => intro lastKey wcsl it h; simp [compactLoop] at h
  | cons e rest ih =>
    intro lastKey wcsl it h
    simp only [compactLoop] at h
    split at h
    · simp at h
    · simp only [List.mem_cons] at h
      rcases h with h | h
      · subst h; exact List.mem_cons_self _ _
      · exact List.mem_cons_of_mem _ (ih _ _ _ h)

theorem compactLoop_kept_not_dropped (gc : Bool) (wm : Nat) (filter : FullKey → Bool)
    (right : Option FullKey) :
    ∀ (rem : List Entry) (lastKey : Option FullKey) (wcsl : Bool) (it : TraceItem),
      it ∈ compactLoop gc wm filter right rem lastKey wcsl → it.kept = true →
      collapsedTombstone gc wm it.entry = false ∧ filter it.entry.key = false := by
  intro rem
  induction rem with
  | nil => intro lastKey wcsl it h; simp [compactLoop] at h
  | cons e rest ih =>
    intro lastKey wcsl it h hkept
    simp only [compactLoop] at h
    split at h
    · simp at h
    · simp only [List.mem_cons] at h
      rcases h with h | h
      · subst h
        simp only [hkept] at *
        rw [dropDecision_eq] at hkept
        simp only [Bool.not_eq_eq_eq_not, Bool.not_true, Bool.or_eq_false_iff] at hkept
        exact ⟨hkept.1.1, hkept.2⟩
      · exact ih _ _ _ h hkept

/-- Once `watermark_can_see_last_key` holds for the current user key and every remaining version
of that user key lies strictly below the watermark, no further version of that user key is ever
added to the builder. -/
theorem compactLoop_flag_no_kept (gc : Bool) (wm : Nat) (filter : FullKey → Bool)
    (right : Option FullKey) (u : List Nat) :
    ∀ (rem : List Entry) (lk : FullKey),
      List.Pairwise entryLt rem →
      lk.userKey = u →
      (∀ x ∈ rem, x.key.userKey = u → x.key.epoch < wm) →
      (∀ x ∈ rem, x.key.userKey = u ∨ bytesLtB u x.key.userKey = true) →
      ∀ it ∈ compactLoop gc wm filter right rem (some lk) true,
        it.kept = true → it.entry.key.userKey = u → False := by
  intro rem
  induction rem with
  | nil => intro lk _ _ _ _ it h; simp [compactLoop] at h
  | cons e rest ih =>
    intro lk hsorted hlk hlow hub it hit hkept huku
    by_cases huk : e.key.userKey = u
    · have hnew : isNewUserKeyB (some lk) e.key = false := by
        simp [isNewUserKeyB, huk, hlk]
      simp only [compactLoop, hnew, Bool.false_and, if_neg (by simp : ¬ (false = true))] at hit
      have hdrop : dropDecision gc wm filter true e = true := by
        rw [dropDecision_eq]
        have : e.key.epoch < wm := hlow e (List.mem_cons_self _ _) huk
        simp [this]
      simp only [List.mem_cons] at hit
      rcases hit with hit | hit
      · subst hit
        simp only [hdrop] at hkept
        simp at hkept
      · rw [ite_self] at hit
        refine ih lk hsorted.of_cons hlk ?_ ?_ it hit hkept huku
        · exact fun x hx => hlow x (List.mem_cons_of_mem _ hx)
        · exact fun x hx => hub x (List.mem_cons_of_mem _ hx)
    · have hmem : it.entry ∈ e :: rest := by
        refine compactLoop_entry_mem gc wm filter right _ _ _ _ hit
      have hub_e : bytesLtB u e.key.userKey = true := by
        rcases hub e (List.mem_cons_self _ _) with h | h
        · exact absurd h huk
        · exact h
      simp only [List.mem_cons] at hmem
      rcases hmem with hmem | hmem
      · exact huk (hmem ▸ huku)
      · have hlt : entryLt e it.entry := (List.pairwise_cons.mp hsorted).1 _ hmem
        unfold entryLt fullKeyLtB at hlt
        simp only [Bool.or_eq_true, Bool.and_eq_true, decide_eq_true_eq] at hlt
        rcases hlt with h | ⟨h, _⟩
        · rw [huku] at h
          have := bytesLtB_trans _ _ _ hub_e h
          rw [bytesLtB_irrefl] at this
          exact Bool.false_ne_true this
        · exact huk (h.trans huku)

theorem epoch_lt_of_pairwise {e x : Entry} {rest : List Entry}
    (hs : List.Pairwise entryLt (e :: rest)) (hx : x ∈ rest)
    (huk : x.key.userKey = e.key.userKey) : x.key.epoch < e.key.epoch := by
  have hlt : entryLt e x := (List.pairwise_cons.mp hs).1 _ hx
  unfold entryLt fullKeyLtB at hlt
  simp only [Bool.or_eq_true, Bool.and_eq_true, decide_eq_true_eq] at hlt
  rcases hlt with h | ⟨_, h⟩
  · rw [← huk, bytesLtB_irrefl] at h
    exact absurd h Bool.false_ne_true
  · exact h

theorem uk_cases_of_pairwise {e x : Entry} {rest : List Entry}
    (hs : List.Pairwise entryLt (e :: rest)) (hx : x ∈ rest) :
    x.key.userKey = e.key.userKey ∨ bytesLtB e.key.userKey x.key.userKey = true := by
  have hlt : entryLt e x := (List.pairwise_cons.mp hs).1 _ hx
  unfold entryLt fullKeyLtB at hlt
  simp only [Bool.or_eq_true, Bool.and_eq_true, decide_eq_true_eq] at hlt
  rcases hlt with h | ⟨h, _⟩
  · exact Or.inr h
  · exact Or.inl h.symm

theorem isNew_false_elim {lastKey : Option FullKey} {k : FullKey}
    (h : isNewUserKeyB lastKey k = false) : ∃ lk, lastKey = some lk ∧ k.userKey = lk.userKey := by
  cases lastKey with
  | none => simp [isNewUserKeyB] at h
  | some lk =>
    refine ⟨lk, rfl, ?_⟩
    simpa [isNewUserKeyB] using h

/-- The state invariant threaded through the loop: whenever `watermark_can_see_last_key` is set,
`last_key` holds the head key of the current user-key group, every remaining version of that user
key is strictly below the watermark, and no remaining entry sorts before that user key. -/
def flagInv (wm : Nat) (rem : List Entry) (lastKey : Option FullKey) (wcsl : Bool) : Prop :=
  wcsl = true → ∃ lk, lastKey = some lk ∧
    (∀ x ∈ rem, x.key.userKey = lk.userKey → x.key.epoch < wm) ∧
    (∀ x ∈ rem, x.key.userKey = lk.userKey ∨ bytesLtB lk.userKey x.key.userKey = true)

/-- Counts output entries of user key `u` whose epoch is at or below the watermark. -/
def belowWmCount (wm : Nat) (u : List Nat) (tr : List TraceItem) : Nat :=
  tr.countP
    (fun it => it.kept && (decide (it.entry.key.userKey = u) && decide (it.entry.key.epoch ≤ wm)))

theorem compactLoop_below_wm_unique (gc : Bool) (wm : Nat) (filter : FullKey → Bool)
    (right : Option FullKey) (u : List Nat) :
    ∀ (rem : List Entry) (lastKey : Option FullKey) (wcsl : Bool),
      List.Pairwise entryLt rem →
      flagInv wm rem lastKey wcsl →
      belowWmCount wm u (compactLoop gc wm filter right rem lastKey wcsl) ≤ 1 := by
  intro rem
  induction rem with
  | nil => intro lastKey wcsl _ _; simp [compactLoop, belowWmCount]
  | cons e rest ih =>
    intro lastKey wcsl hsorted hflag
    simp only [compactLoop]
    split
    · simp [belowWmCount]
    · rename_i hbreak
      unfold belowWmCount
      rw [List.countP_cons]
      set wcsl1 := if isNewUserKeyB lastKey e.key = true then false else wcsl with hw1
      by_cases hp : (e.key.userKey = u ∧ e.key.epoch ≤ wm ∧
          dropDecision gc wm filter wcsl1 e = false)
      · obtain ⟨huk, hew, hdp⟩ := hp
        have hlast : ∃ lk, (if isNewUserKeyB lastKey e.key = true then some e.key else lastKey)
            = some lk ∧ lk.userKey = u := by
          cases hnew : isNewUserKeyB lastKey e.key with
          | true => exact ⟨e.key, by simp, huk⟩
          | false =>
            obtain ⟨lk, hlk, hlkuk⟩ := isNew_false_elim hnew
            exact ⟨lk, by simp [hlk], hlkuk ▸ huk⟩
        obtain ⟨lk, hlk, hlkuk⟩ := hlast
        have htail : ∀ it ∈ compactLoop gc wm filter right rest
            (if isNewUserKeyB lastKey e.key = true then some e.key else lastKey)
            (if e.key.epoch ≤ wm then true else wcsl1),
            ¬ (it.kept && (decide (it.entry.key.userKey = u)
                && decide (it.entry.key.epoch ≤ wm))) = true := by
          intro it hit hcontra
          simp only [Bool.and_eq_true, decide_eq_true_eq] at hcontra
          rw [hlk, if_pos hew] at hit
          refine compactLoop_flag_no_kept gc wm filter right u rest lk hsorted.of_cons hlkuk
            ?_ ?_ it hit hcontra.1 hcontra.2.1
          · intro x hx hxu
            have := epoch_lt_of_pairwise hsorted hx (hxu.trans huk.symm)
            omega
          · intro x hx
            rcases uk_cases_of_pairwise hsorted hx with h | h
            · exact Or.inl (h.trans huk)
            · exact Or.inr (huk ▸ h)
        have : List.countP
            (fun it => it.kept && (decide (it.entry.key.userKey = u)
              && decide (it.entry.key.epoch ≤ wm)))
            (compactLoop gc wm filter right rest
              (if isNewUserKeyB lastKey e.key = true then some e.key else lastKey)
              (if e.key.epoch ≤ wm then true else wcsl1)) = 0 :=
          List.countP_eq_zero.mpr htail
        rw [this]
        split <;> simp
      · have hinv : flagInv wm rest
            (if isNewUserKeyB lastKey e.key = true then some e.key else lastKey)
            (if e.key.epoch ≤ wm then true else wcsl1) := by
          intro hw
          by_cases hew : e.key.epoch ≤ wm
          · have hlast : ∃ lk,
                (if isNewUserKeyB lastKey e.key = true then some e.key else lastKey)
                  = some lk ∧ lk.userKey = e.key.userKey := by
              cases hnew : isNewUserKeyB lastKey e.key with
              | true => exact ⟨e.key, by simp, rfl⟩
              | false =>
                obtain ⟨lk, hlk, hlkuk⟩ := isNew_false_elim hnew
                exact ⟨lk, by simp [hlk], hlkuk.symm⟩
            obtain ⟨lk, hlk, hlkuk⟩ := hlast
            refine ⟨lk, hlk, ?_, ?_⟩
            · intro x hx hxu
              have := epoch_lt_of_pairwise hsorted hx (hlkuk ▸ hxu)
              omega
            · intro x hx
              rcases uk_cases_of_pairwise hsorted hx with h | h
              · exact Or.inl (hlkuk ▸ h)
              · exact Or.inr (hlkuk ▸ h)
          · rw [if_neg hew] at hw
            rw [hw1] at hw
            have hnew : isNewUserKeyB lastKey e.key = false := by
              by_contra hc
              simp only [Bool.not_eq_false] at hc
              simp [hc] at hw
            rw [if_neg (by simp [hnew])] at hw
            obtain ⟨lk, hlk, hlow, hub⟩ := hflag hw
            rw [if_neg (by simp [hnew]), hlk]
            exact ⟨lk, rfl, fun x hx => hlow x (List.mem_cons_of_mem _ hx),
              fun x hx => hub x (List.mem_cons_of_mem _ hx)⟩
        dsimp only
        have hcond : (!dropDecision gc wm filter wcsl1 e
            && (decide (e.key.userKey = u) && decide (e.key.epoch ≤ wm))) = false := by
          by_cases h1 : e.key.userKey = u
          · by_cases h2 : e.key.epoch ≤ wm
            · cases h3 : dropDecision gc wm filter wcsl1 e with
              | false => exact absurd ⟨h1, h2, h3⟩ hp
              | true => simp [h3]
            · simp [h2]
          · simp [h1]
        rw [hcond]
        simp only [Bool.false_eq_true, if_false, Nat.add_zero]
        exact ih _ _ hsorted.of_cons hinv

/-- The loop-state invariant `flagInv` is preserved by one iteration of the loop. -/
theorem flagInv_step (wm : Nat) (e : Entry) (rest : List Entry) (lastKey : Option FullKey)
    (wcsl : Bool) (hsorted : List.Pairwise entryLt (e :: rest))
    (hflag : flagInv wm (e :: rest) lastKey wcsl) :
    flagInv wm rest (if isNewUserKeyB lastKey e.key = true then some e.key else lastKey)
      (if e.key.epoch ≤ wm then true
        else if isNewUserKeyB lastKey e.key = true then false else wcsl) := by
  intro hw
  by_cases hew : e.key.epoch ≤ wm
  · have hlast : ∃ lk,
        (if isNewUserKeyB lastKey e.key = true then some e.key else lastKey)
          = some lk ∧ lk.userKey = e.key.userKey := by
      cases hnew : isNewUserKeyB lastKey e.key with
      | true => exact ⟨e.key, by simp, rfl⟩
      | false =>
        obtain ⟨lk, hlk, hlkuk⟩ := isNew_false_elim hnew
        exact ⟨lk, by simp [hlk], hlkuk.symm⟩
    obtain ⟨lk, hlk, hlkuk⟩ := hlast
    refine ⟨lk, hlk, ?_, ?_⟩
    · intro x hx hxu
      have := epoch_lt_of_pairwise hsorted hx (hlkuk ▸ hxu)
      omega
    · intro x hx
      rcases uk_cases_of_pairwise hsorted hx with h | h
      · exact Or.inl (hlkuk ▸ h)
      · exact Or.inr (hlkuk ▸ h)
  · rw [if_neg hew] at hw
    have hnew : isNewUserKeyB lastKey e.key = false := by
      by_contra hc
      simp only [Bool.not_eq_false] at hc
      simp [hc] at hw
    rw [if_neg (by simp [hnew])] at hw
    obtain ⟨lk, hlk, hlow, hub⟩ := hflag hw
    rw [if_neg (by simp [hnew]), hlk]
    exact ⟨lk, rfl, fun x hx => hlow x (List.mem_cons_of_mem _ hx),
      fun x hx => hub x (List.mem_cons_of_mem _ hx)⟩

/-- After the loop has examined an entry of user key `u` at or below the watermark, no later
entry of user key `u` is added to the builder. -/
theorem no_kept_after_below_wm (gc : Bool) (wm : Nat) (filter : FullKey → Bool)
    (right : Option FullKey) (u : List Nat) (e : Entry) (rest : List Entry)
    (lastKey : Option FullKey) (hsorted : List.Pairwise entryLt (e :: rest))
    (huk : e.key.userKey = u) (hew : e.key.epoch ≤ wm) :
    ∀ it ∈ compactLoop gc wm filter right rest
        (if isNewUserKeyB lastKey e.key = true then some e.key else lastKey) true,
      it.kept = true → it.entry.key.userKey = u → False := by
  intro it hit hkept huku
  have hlast : ∃ lk, (if isNewUserKeyB lastKey e.key = true then some e.key else lastKey)
      = some lk ∧ lk.userKey = u := by
    cases hnew : isNewUserKeyB lastKey e.key with
    | true => exact ⟨e.key, by simp, huk⟩
    | false =>
      obtain ⟨lk, hlk, hlkuk⟩ := isNew_false_elim hnew
      exact ⟨lk, by simp [hlk], hlkuk ▸ huk⟩
  obtain ⟨lk, hlk, hlkuk⟩ := hlast
  rw [hlk] at hit
  refine compactLoop_flag_no_kept gc wm filter right u rest lk hsorted.of_cons hlkuk
    ?_ ?_ it hit hkept huku
  · intro x hx hxu
    have := epoch_lt_of_pairwise hsorted hx (hxu.trans huk.symm)
    omega
  · intro x hx
    rcases uk_cases_of_pairwise hsorted hx with h | h
    · exact Or.inl (h.trans huk)
    · exact Or.inr (huk ▸ h)

/-- Every output entry of user key `u` at or below the watermark comes from the iterated input
and carries the largest epoch at or below the watermark among the input versions of `u`. -/
theorem compactLoop_below_wm_max (gc : Bool) (wm : Nat) (filter : FullKey → Bool)
    (right : Option FullKey) (u : List Nat) :
    ∀ (rem : List Entry) (lastKey : Option FullKey) (wcsl : Bool),
      List.Pairwise entryLt rem →
      flagInv wm rem lastKey wcsl →
      ∀ it ∈ compactLoop gc wm filter right rem lastKey wcsl,
        it.kept = true → it.entry.key.userKey = u → it.entry.key.epoch ≤ wm →
        it.entry ∈ rem ∧
        ∀ x ∈ rem, x.key.userKey = u → x.key.epoch ≤ wm →
          x.key.epoch ≤ it.entry.key.epoch := by
  intro rem
  induction rem with
  | nil => intro lastKey wcsl _ _ it h; simp [compactLoop] at h
  | cons e rest ih =>
    intro lastKey wcsl hsorted hflag it hit hkept huku hewit
    simp only [compactLoop] at hit
    split at hit
    · simp at hit
    · simp only [List.mem_cons] at hit
      rcases hit with hit | hit
      · subst hit
        refine ⟨List.mem_cons_self _ _, ?_⟩
        intro x hx hxu _
        simp only [List.mem_cons] at hx
        rcases hx with hx | hx
        · exact hx ▸ Nat.le_refl _
        · exact Nat.le_of_lt (epoch_lt_of_pairwise hsorted hx (hxu.trans huku.symm))
      · by_cases hcase : e.key.userKey = u ∧ e.key.epoch ≤ wm
        · exfalso
          rw [if_pos hcase.2] at hit
          exact no_kept_after_below_wm gc wm filter right u e rest lastKey hsorted
            hcase.1 hcase.2 it hit hkept huku
        · have hrec := ih _ _ hsorted.of_cons (flagInv_step wm e rest lastKey wcsl hsorted hflag)
            it ?_ hkept huku hewit
          · refine ⟨List.mem_cons_of_mem _ hrec.1, ?_⟩
            intro x hx hxu hxw
            simp only [List.mem_cons] at hx
            rcases hx with hx | hx
            · exact absurd ⟨hx ▸ hxu, hx ▸ hxw⟩ hcase
            · exact hrec.2 x hx hxu hxw
          · by_cases hnw : isNewUserKeyB lastKey e.key = true <;>
              simp [hnw] at hit ⊢ <;> exact hit

theorem mem_keptEntries {tr : List TraceItem} {en : Entry} :
    en ∈ keptEntries tr ↔ ∃ it, it ∈ tr ∧ it.kept = true ∧ it.entry = en := by
  unfold keptEntries
  simp only [List.mem_map, List.mem_filter]
  constructor
  · rintro ⟨it, ⟨hmem, hkept⟩, hentry⟩
    exact ⟨it, hmem, hkept, hentry⟩
  · rintro ⟨it, hmem, hkept, hentry⟩
    exact ⟨it, ⟨hmem, hkept⟩, hentry⟩

theorem countP_keptEntries (wm : Nat) (u : List Nat) (tr : List TraceItem) :
    (keptEntries tr).countP
        (fun en => decide (en.key.userKey = u) && decide (en.key.epoch ≤ wm))
      = belowWmCount wm u tr := by
  unfold keptEntries belowWmCount
  rw [List.countP_map, List.countP_filter]
  refine List.countP_congr ?_
  intro it _
  cases h : it.kept <;> simp [Function.comp, h]

theorem pairwise_eq_of_same {l : List Entry} (hs : List.Pairwise entryLt l) :
    ∀ a ∈ l, ∀ b ∈ l, a.key.userKey = b.key.userKey → a.key.epoch = b.key.epoch → a = b := by
  induction l with
  | nil => simp
  | cons e rest ih =>
    intro a ha b hb huk hep
    simp only [List.mem_cons] at ha hb
    rcases ha with ha | ha <;> rcases hb with hb | hb
    · exact ha.trans hb.symm
    · exfalso
      subst ha
      exact entryLt_of_eq_false huk hep ((List.pairwise_cons.mp hs).1 _ hb)
    · exfalso
      subst hb
      exact entryLt_of_eq_false huk.symm hep.symm ((List.pairwise_cons.mp hs).1 _ ha)
    · exact ih (List.Pairwise.of_cons hs) a ha b hb huk hep

/-- Claim C1: in every run of `compact_and_build_sst` over a strictly sorted iterator stream,
for every user key `u` the output has at most one entry with `epoch ≤ watermark`; if present, it
is an input entry that is not a collapsed tombstone and its epoch is maximal among the input
versions of `u` at or below the watermark that are not collapsed tombstones. -/
theorem c1_one_survivor_below_watermark (input : List Entry) (right : Option FullKey)
    (inf : Bool) (gc : Bool) (wm : Nat) (filter : FullKey → Bool) (u : List Nat)
    (hsorted : List.Pairwise entryLt input) :
    ((keptEntries (compact_and_build_sst ⟨none, right, inf⟩ input gc wm filter)).countP
        (fun en => decide (en.key.userKey = u) && decide (en.key.epoch ≤ wm)) ≤ 1) ∧
    ∀ en ∈ keptEntries (compact_and_build_sst ⟨none, right, inf⟩ input gc wm filter),
      en.key.userKey = u → en.key.epoch ≤ wm →
      en ∈ input ∧ collapsedTombstone gc wm en = false ∧
      ∀ x ∈ input, x.key.userKey = u → x.key.epoch ≤ wm →
        collapsedTombstone gc wm x = false → x.key.epoch ≤ en.key.epoch := by
  have hflag : flagInv wm input none false := by
    intro h
    exact absurd h Bool.false_ne_true
  have hrfl : compact_and_build_sst ⟨none, right, inf⟩ input gc wm filter
      = compactLoop gc wm filter right input none false := rfl
  constructor
  · rw [countP_keptEntries, hrfl]
    exact compactLoop_below_wm_unique gc wm filter right u input none false hsorted hflag
  · intro en hen huku hew
    rw [hrfl, mem_keptEntries] at hen
    obtain ⟨it, hit, hkept, hentry⟩ := hen
    subst hentry
    have hmax := compactLoop_below_wm_max gc wm filter right u input none false hsorted hflag
      it hit hkept huku hew
    have htomb := compactLoop_kept_not_dropped gc wm filter right input none false it hit hkept
    exact ⟨hmax.1, htomb.1, fun x hx h1 h2 _ => hmax.2 x hx h1 h2⟩

theorem c1_one_survivor_below_watermark_witness :
    (keptEntries (compact_and_build_sst ⟨none, none, false⟩
        [⟨⟨[97], 5⟩, .put [118]⟩, ⟨⟨[97], 3⟩, .delete⟩] true 4 (fun _ => false))).countP
      (fun en => decide (en.key.userKey = [97]) && decide (en.key.epoch ≤ 4)) ≤ 1 :=
  (c1_one_survivor_below_watermark [⟨⟨[97], 5⟩, .put [118]⟩, ⟨⟨[97], 3⟩, .delete⟩]
    none false true 4 (fun _ => false) [97] (by decide)).1

/-- Claim C2: with `gc_delete_keys = true`, a `Delete` at epoch `e ≤ watermark` for user key `k`
in a strictly sorted iterator stream removes every version of `k` at or below epoch `e` from the
output; in particular the literal scenario S1 of the spec produces exactly
`(k = "a", e = 5, Put "v")`. -/
theorem c2_tombstone_collapsing :
    (∀ (input : List Entry) (right : Option FullKey) (inf : Bool) (wm : Nat)
        (filter : FullKey → Bool) (k : List Nat) (ed : Nat),
      List.Pairwise entryLt input →
      (⟨⟨k, ed⟩, HummockValue.delete⟩ : Entry) ∈ input →
      ed ≤ wm →
      (keptEntries (compact_and_build_sst ⟨none, right, inf⟩ input true wm filter)).countP
        (fun en => decide (en.key.userKey = k) && decide (en.key.epoch ≤ ed)) = 0) ∧
    keptEntries (compact_and_build_sst ⟨none, none, false⟩
        [⟨⟨[97], 5⟩, .put [118]⟩, ⟨⟨[97], 3⟩, .delete⟩, ⟨⟨[97], 1⟩, .put [111]⟩]
        true 4 (fun _ => false))
      = [⟨⟨[97], 5⟩, .put [118]⟩] := by
  constructor
  · intro input right inf wm filter k ed hsorted hdel hed
    rw [List.countP_eq_zero]
    rintro en hen hcount
    simp only [Bool.and_eq_true, decide_eq_true_eq] at hcount
    obtain ⟨huk, hee⟩ := hcount
    have hflag : flagInv wm input none false := by
      intro h
      exact absurd h Bool.false_ne_true
    have hrfl : compact_and_build_sst ⟨none, right, inf⟩ input true wm filter
        = compactLoop true wm filter right input none false := rfl
    rw [hrfl, mem_keptEntries] at hen
    obtain ⟨it, hit, hkept, hentry⟩ := hen
    subst hentry
    have hew : it.entry.key.epoch ≤ wm := hee.trans hed
    have hmax := compactLoop_below_wm_max true wm filter right k input none false hsorted hflag
      it hit hkept huk hew
    have hmaxdel := hmax.2 ⟨⟨k, ed⟩, HummockValue.delete⟩ hdel rfl hed
    have hepo : it.entry.key.epoch = ed := le_antisymm hee hmaxdel
    have heq : it.entry = ⟨⟨k, ed⟩, HummockValue.delete⟩ :=
      pairwise_eq_of_same hsorted _ hmax.1 _ hdel huk hepo
    have htomb := (compactLoop_kept_not_dropped true wm filter right input none false
      it hit hkept).1
    rw [heq] at htomb
    simp [collapsedTombstone, HummockValue.is_delete, hed] at htomb
  · decide

theorem c2_tombstone_collapsing_witness :
    (keptEntries (compact_and_build_sst ⟨none, none, false⟩
        [⟨⟨[98], 6⟩, .put [1]⟩, ⟨⟨[98], 2⟩, .delete⟩, ⟨⟨[98], 1⟩, .put [2]⟩]
        true 5 (fun _ => false))).countP
      (fun en => decide (en.key.userKey = [98]) && decide (en.key.epoch ≤ 2)) = 0 :=
  c2_tombstone_collapsing.1
    [⟨⟨[98], 6⟩, .put [1]⟩, ⟨⟨[98], 2⟩, .delete⟩, ⟨⟨[98], 1⟩, .put [2]⟩]
    none false 5 (fun _ => false) [98] 2 (by decide) (by decide) (by decide)

/-- The first examined entry of a user key at or below the watermark is added to the builder
unless the tombstone-collapse rule or the compaction filter drops it: the
`watermark_can_see_last_key` flag cannot shadow it, because the flag is only raised after the
drop decision of the entry that raised it. -/
theorem compactLoop_first_below_wm (gc : Bool) (wm : Nat) (filter : FullKey → Bool)
    (right : Option FullKey) (u : List Nat) :
    ∀ (rem : List Entry) (lastKey : Option FullKey) (wcsl : Bool),
      (wcsl = true → ∀ lk, lastKey = some lk → lk.userKey ≠ u) →
      ∀ (t1 t2 : List TraceItem) (it : TraceItem),
        compactLoop gc wm filter right rem lastKey wcsl = t1 ++ it :: t2 →
        it.entry.key.userKey = u → it.entry.key.epoch ≤ wm →
        (∀ j ∈ t1, j.entry.key.userKey = u → wm < j.entry.key.epoch) →
        collapsedTombstone gc wm it.entry = false →
        filter it.entry.key = false →
        it.kept = true := by
  intro rem
  induction rem with
  | nil =>
    intro lastKey wcsl _ t1 t2 it hdec
    rw [compactLoop] at hdec
    exact absurd hdec.symm (List.append_ne_nil_of_right_ne_nil _ (List.cons_ne_nil _ _))
  | cons e rest ih =>
    intro lastKey wcsl hstate t1 t2 it hdec huku hew hfirst htomb hfilter
    simp only [compactLoop] at hdec
    split at hdec
    · exact absurd hdec.symm (List.append_ne_nil_of_right_ne_nil _ (List.cons_ne_nil _ _))
    · cases t1 with
      | nil =>
        simp only [List.nil_append, List.cons.injEq] at hdec
        rw [← hdec.1]
        rw [← hdec.1] at huku htomb hfilter
        dsimp only at huku htomb hfilter ⊢
        rw [dropDecision_eq, htomb, hfilter]
        simp only [Bool.or_false, Bool.false_or, Bool.not_eq_eq_eq_not, Bool.not_true]
        cases hnew : isNewUserKeyB lastKey e.key with
        | true => simp [hnew]
        | false =>
          obtain ⟨lk, hlk, hlkuk⟩ := isNew_false_elim hnew
          cases hw : wcsl with
          | true => exact absurd (hlkuk.symm.trans huku) (hstate hw lk hlk)
          | false => simp [hnew, hw]
      | cons j t1r =>
        simp only [List.cons_append, List.cons.injEq] at hdec
        have hj : j.entry = e := by rw [← hdec.1]
        refine ih _ _ ?_ t1r t2 it hdec.2 huku hew
          (fun x hx => hfirst x (hdec.1 ▸ List.mem_cons_of_mem _ hx)) htomb hfilter
        intro hw lk2 hlk2 hlk2u
        by_cases hewe : e.key.epoch ≤ wm
        · have hje : e.key.userKey ≠ u := by
            intro hju
            have h5 := hfirst j (List.mem_cons_self _ _) (by rw [hj]; exact hju)
            rw [hj] at h5
            omega
          cases hnew : isNewUserKeyB lastKey e.key with
          | true =>
            rw [hnew] at hlk2
            simp only [if_pos] at hlk2
            injection hlk2 with hlk2
            rw [← hlk2] at hlk2u
            exact hje hlk2u
          | false =>
            obtain ⟨lk, hlk, hlkuk⟩ := isNew_false_elim hnew
            rw [hnew] at hlk2
            simp only [Bool.false_eq_true, if_false, hlk] at hlk2
            injection hlk2 with hlk2
            subst hlk2
            exact hje (hlkuk.trans hlk2u)
        · rw [if_neg hewe] at hw
          have hnew : isNewUserKeyB lastKey e.key = false := by
            by_contra hc
            simp only [Bool.not_eq_false] at hc
            simp [hc] at hw
          rw [if_neg (by simp [hnew])] at hw
          rw [hnew] at hlk2
          simp only [Bool.false_eq_true, if_false] at hlk2
          exact hstate hw lk2 hlk2 hlk2u

/-- Claim C3 (amended): in every run of `compact_and_build_sst`, the first examined entry with
`epoch ≤ watermark` for a given user key is added to the builder unless it is a collapsed
tombstone (`epoch ≤ watermark`, `gc_delete_keys`, `Delete`) or the compaction filter vetoes it;
`watermark_can_see_last_key` is raised only after the drop decision for that entry, so the flag
never shadows it. -/
theorem c3_first_below_watermark_kept (input : List Entry) (right : Option FullKey) (inf : Bool)
    (gc : Bool) (wm : Nat) (filter : FullKey → Bool) (u : List Nat)
    (t1 t2 : List TraceItem) (it : TraceItem)
    (hdec : compact_and_build_sst ⟨none, right, inf⟩ input gc wm filter = t1 ++ it :: t2)
    (huk : it.entry.key.userKey = u) (hew : it.entry.key.epoch ≤ wm)
    (hfirst : ∀ j ∈ t1, j.entry.key.userKey = u → wm < j.entry.key.epoch)
    (htomb : collapsedTombstone gc wm it.entry = false)
    (hfilter : filter it.entry.key = false) :
    it.kept = true :=
  compactLoop_first_below_wm gc wm filter right u input none false
    (fun h => absurd h Bool.false_ne_true) t1 t2 it hdec huk hew hfirst htomb hfilter

theorem c3_first_below_watermark_kept_witness :
    TraceItem.kept ⟨⟨⟨[99], 3⟩, .put [7]⟩, true, true⟩ = true :=
  c3_first_below_watermark_kept [⟨⟨[99], 3⟩, .put [7]⟩] none false false 5 (fun _ => false)
    [99] [] [] ⟨⟨⟨[99], 3⟩, .put [7]⟩, true, true⟩ (by decide) rfl (by decide) (by simp)
    (by decide) rfl

/-- Claim C3 as stated is refuted: with a compaction filter that vetoes every key, the first
examined entry of its user key at or below the watermark is not a collapsed tombstone and yet
is dropped. -/
theorem c3_counterexample :
    compact_and_build_sst ⟨none, none, false⟩ [⟨⟨[97], 1⟩, .put []⟩] false 5 (fun _ => true)
        = [⟨⟨⟨[97], 1⟩, .put []⟩, true, false⟩] ∧
    collapsedTombstone false 5 ⟨⟨[97], 1⟩, .put []⟩ = false := by
  decide

/-- State of `CapacitySplitTableBuilder`: the sealed SSTs (each as its ordered list of added
entries) and the currently open `SSTableBuilder` content (`none` when no builder is open).
Ids, metadata and the spawned uploads are irrelevant to the claims and omitted. -/
structure BuilderState where
  sealed : List (List Entry)
  current : Option (List Entry)
deriving DecidableEq, Repr

/-- `CapacitySplitTableBuilder::add_full_key`: when `allow_split` holds and the open builder
reports `reach_capacity`, seal it; then open a fresh builder if none is open and append the
pair.  `reachCapacity` abstracts `SSTableBuilder::reach_capacity` (the sstable builder itself is
not among the embedded sources); it may depend arbitrarily on the builder content. -/
def add_full_key (reachCapacity : List Entry → Bool) (st : BuilderState) (e : Entry)
    (allowSplit : Bool) : BuilderState :=
  let st1 : BuilderState :=
    match st.current with
    | some cur =>
      if allowSplit && reachCapacity cur then ⟨st.sealed ++ [cur], none⟩ else st
    | none => st
  match st1.current with
  | none => ⟨st1.sealed, some [e]⟩
  | some cur => ⟨st1.sealed, some (cur ++ [e])⟩

/-- `CapacitySplitTableBuilder::finish`: seal the open builder and return all sealed SSTs. -/
def finishBuilder (st : BuilderState) : List (List Entry) :=
  match st.current with
  | none => st.sealed
  | some cur => st.sealed ++ [cur]

/-- A whole run of the builder: perform the `add_full_key` calls in order from the fresh state
and `finish`. -/
def runBuilder (reachCapacity : List Entry → Bool) (calls : List (Entry × Bool)) :
    List (List Entry) :=
  finishBuilder (calls.foldl (fun st c => add_full_key reachCapacity st c.1 c.2) ⟨[], none⟩)

/-- Claim C4's hypothesis: `allow_split` is false whenever the key shares its user key with the
immediately previously added key (which is what `compact_and_build_sst` ensures by passing
`is_new_user_key`). -/
def NoSplitOnSameUser (calls : List (Entry × Bool)) : Prop :=
  ∀ p a b s, calls = p ++ a :: b :: s → a.1.key.userKey = b.1.key.userKey → b.2 = false

/-- Occurrences of each user key are consecutive: once the user key changes between two
consecutive calls, the old user key never occurs again. -/
def NoUserKeyRevisit (calls : List (Entry × Bool)) : Prop :=
  ∀ p a c s, calls = p ++ a :: c :: s → a.1.key.userKey ≠ c.1.key.userKey →
    ∀ b ∈ s, b.1.key.userKey ≠ a.1.key.userKey

/-- Two SSTs share no user key. -/
def ukDisjoint (s t : List Entry) : Prop :=
  ∀ x ∈ s, ∀ y ∈ t, x.key.userKey ≠ y.key.userKey

instance : DecidableRel ukDisjoint := fun s t => by
  unfold ukDisjoint; infer_instance

theorem add_full_key_fresh (reachCapacity : List Entry → Bool) (st : BuilderState) (e : Entry)
    (b : Bool) (h : st.current = none) :
    add_full_key reachCapacity st e b = ⟨st.sealed, some [e]⟩ := by
  unfold add_full_key
  simp [h]

theorem add_full_key_append (reachCapacity : List Entry → Bool) (st : BuilderState) (e : Entry)
    (b : Bool) (cur : List Entry) (h : st.current = some cur)
    (hns : (b && reachCapacity cur) = false) :
    add_full_key reachCapacity st e b = ⟨st.sealed, some (cur ++ [e])⟩ := by
  unfold add_full_key
  simp [h, hns]

theorem add_full_key_seal (reachCapacity : List Entry → Bool) (st : BuilderState) (e : Entry)
    (b : Bool) (cur : List Entry) (h : st.current = some cur)
    (hs : (b && reachCapacity cur) = true) :
    add_full_key reachCapacity st e b = ⟨st.sealed ++ [cur], some [e]⟩ := by
  unfold add_full_key
  simp [h, hs]

/-- Invariant induction over the remaining `add_full_key` calls: sealed SSTs stay pairwise
user-key-disjoint, stay disjoint from the open builder, and their user keys never occur among
the remaining calls; within the open builder, only its last run of user keys may continue. -/
theorem buildFold_disjoint (reachCapacity : List Entry → Bool)
    (calls : List (Entry × Bool))
    (h1 : NoSplitOnSameUser calls) (h2 : NoUserKeyRevisit calls) :
    ∀ (rem pre : List (Entry × Bool)) (st : BuilderState),
      calls = pre ++ rem →
      (st.current = none → st = ⟨[], none⟩ ∧ pre = []) →
      (∀ cur, st.current = some cur → ∃ lastE b0 pre0,
        cur.getLast? = some lastE ∧ pre = pre0 ++ [(lastE, b0)]) →
      List.Pairwise ukDisjoint st.sealed →
      (∀ s ∈ st.sealed, ∀ cur, st.current = some cur → ukDisjoint s cur) →
      (∀ s ∈ st.sealed, ∀ x ∈ s, ∀ c ∈ rem, x.key.userKey ≠ c.1.key.userKey) →
      (∀ cur, st.current = some cur → ∀ x ∈ cur, ∀ c ∈ rem,
        x.key.userKey = c.1.key.userKey →
        ∀ lastE, cur.getLast? = some lastE → x.key.userKey = lastE.key.userKey) →
      List.Pairwise ukDisjoint
        (finishBuilder
          (rem.foldl (fun st c => add_full_key reachCapacity st c.1 c.2) st)) := by
  intro rem
  induction rem with
  | nil =>
    intro pre st _ _ hb2 hps hsc _ _
    rw [List.foldl_nil]
    unfold finishBuilder
    cases hcur : st.current with
    | none => exact hps
    | some cur =>
      rw [List.pairwise_append]
      refine ⟨hps, List.pairwise_singleton _ _, ?_⟩
      intro s hs t ht
      rw [List.mem_singleton] at ht
      exact ht ▸ hsc s hs cur hcur
  | cons c rem' ih =>
    intro pre st hcalls hb1 hb2 hps hsc hsr hcr
    rw [List.foldl_cons]
    cases hcur : st.current with
    | none =>
      obtain ⟨hst, hpre⟩ := hb1 hcur
      rw [add_full_key_fresh reachCapacity st c.1 c.2 hcur]
      refine ih (pre ++ [c]) ⟨st.sealed, some [c.1]⟩ (by rw [hcalls]; simp) ?_ ?_ ?_ ?_ ?_ ?_
      · intro h; simp at h
      · intro cur h
        simp only [Option.some.injEq] at h
        exact ⟨c.1, c.2, pre, by simp [← h], by simp⟩
      · rw [hst]
        exact List.Pairwise.nil
      · intro s hs
        rw [hst] at hs
        simp at hs
      · intro s hs
        rw [hst] at hs
        simp at hs
      · intro cur h x hx c' _ _ lastE hlast
        simp only [Option.some.injEq] at h
        rw [← h] at hx hlast
        simp only [List.mem_singleton] at hx
        simp only [List.getLast?_singleton, Option.some.injEq] at hlast
        rw [hx, ← hlast]
    | some cur =>
      obtain ⟨lastE, b0, pre0, hlast, hpre⟩ := hb2 cur hcur
      have hdecomp : calls = pre0 ++ (lastE, b0) :: c :: rem' := by
        rw [hcalls, hpre]
        simp
      cases hseal : (c.2 && reachCapacity cur) with
      | false =>
        rw [add_full_key_append reachCapacity st c.1 c.2 cur hcur hseal]
        have hcont : ∀ x ∈ cur, ∀ c' ∈ rem', x.key.userKey = c'.1.key.userKey →
            x.key.userKey = c.1.key.userKey := by
          intro x hx c' hc' hxc
          have hxl := hcr cur hcur x hx c' (List.mem_cons_of_mem _ hc') hxc lastE hlast
          by_cases hle : lastE.key.userKey = c.1.key.userKey
          · exact hxl.trans hle
          · exfalso
            have := h2 pre0 (lastE, b0) c rem' hdecomp hle c' hc'
            exact this (hxc.symm.trans hxl)
        refine ih (pre ++ [c]) ⟨st.sealed, some (cur ++ [c.1])⟩ (by rw [hcalls]; simp)
          ?_ ?_ hps ?_ ?_ ?_
        · intro h; simp at h
        · intro cur2 h
          simp only [Option.some.injEq] at h
          exact ⟨c.1, c.2, pre, by rw [← h]; exact List.getLast?_concat _, rfl⟩
        · intro s hs cur2 h
          simp only [Option.some.injEq] at h
          intro x hx y hy
          rw [← h] at hy
          rcases List.mem_append.mp hy with hy | hy
          · exact hsc s hs cur hcur x hx y hy
          · rw [List.mem_singleton] at hy
            exact hy ▸ hsr s hs x hx c (List.mem_cons_self _ _)
        · intro s hs x hx c' hc'
          exact hsr s hs x hx c' (List.mem_cons_of_mem _ hc')
        · intro cur2 h x hx c' hc' hxc lastE2 hlast2
          simp only [Option.some.injEq] at h
          rw [← h] at hx hlast2
          rw [List.getLast?_concat] at hlast2
          injection hlast2 with hlast2
          rw [← hlast2]
          rcases List.mem_append.mp hx with hx | hx
          · exact hcont x hx c' hc' hxc
          · rw [List.mem_singleton] at hx
            rw [hx]
      | true =>
        rw [add_full_key_seal reachCapacity st c.1 c.2 cur hcur hseal]
        have hb : c.2 = true := (Bool.and_eq_true _ _).mp hseal |>.1
        have hle : lastE.key.userKey ≠ c.1.key.userKey := by
          intro hcontra
          have := h1 pre0 (lastE, b0) c rem' hdecomp hcontra
          rw [hb] at this
          exact Bool.noConfusion this
        have hnr : ∀ x ∈ cur, ∀ c' ∈ rem', x.key.userKey ≠ c'.1.key.userKey := by
          intro x hx c' hc' hxc
          have hxl := hcr cur hcur x hx c' (List.mem_cons_of_mem _ hc') hxc lastE hlast
          have := h2 pre0 (lastE, b0) c rem' hdecomp hle c' hc'
          exact this (hxc.symm.trans hxl)
        have hne : ∀ x ∈ cur, x.key.userKey ≠ c.1.key.userKey := by
          intro x hx hxc
          exact hle ((hcr cur hcur x hx c (List.mem_cons_self _ _) hxc lastE hlast).symm.trans
            hxc)
        refine ih (pre ++ [c]) ⟨st.sealed ++ [cur], some [c.1]⟩ (by rw [hcalls]; simp)
          ?_ ?_ ?_ ?_ ?_ ?_
        · intro h; simp at h
        · intro cur2 h
          simp only [Option.some.injEq] at h
          exact ⟨c.1, c.2, pre, by simp [← h], rfl⟩
        · rw [List.pairwise_append]
          refine ⟨hps, List.pairwise_singleton _ _, ?_⟩
          intro s hs t ht
          rw [List.mem_singleton] at ht
          exact ht ▸ hsc s hs cur hcur
        · intro s hs cur2 h
          simp only [Option.some.injEq] at h
          intro x hx y hy
          rw [← h, List.mem_singleton] at hy
          rcases List.mem_append.mp hs with hs | hs
          · exact hy ▸ hsr s hs x hx c (List.mem_cons_self _ _)
          · rw [List.mem_singleton] at hs
            rw [hs] at hx
            exact hy ▸ hne x hx
        · intro s hs x hx c' hc'
          rcases List.mem_append.mp hs with hs | hs
          · exact hsr s hs x hx c' (List.mem_cons_of_mem _ hc')
          · rw [List.mem_singleton] at hs
            rw [hs] at hx
            exact hnr x hx c' hc'
        · intro cur2 h x hx c' _ _ lastE2 hlast2
          simp only [Option.some.injEq] at h
          rw [← h] at hx hlast2
          simp only [List.mem_singleton] at hx
          simp only [List.getLast?_singleton, Option.some.injEq] at hlast2
          rw [hx, ← hlast2]

/-- Claim C4 (amended): for every sequence of `add_full_key` calls in which `allow_split` is
false whenever the key shares its user key with the previously added key, and in which the calls
of each user key are consecutive (no user key recurs after a different user key intervened, as
holds for the sorted stream `compact_and_build_sst` feeds in), no two SSTs produced by
`CapacitySplitTableBuilder` share any user key. -/
theorem c4_no_shared_user_key (reachCapacity : List Entry → Bool)
    (calls : List (Entry × Bool))
    (h1 : NoSplitOnSameUser calls) (h2 : NoUserKeyRevisit calls) :
    List.Pairwise ukDisjoint (runBuilder reachCapacity calls) := by
  unfold runBuilder
  refine buildFold_disjoint reachCapacity calls h1 h2 calls [] ⟨[], none⟩ rfl ?_ ?_ ?_ ?_ ?_ ?_
  · intro _
    exact ⟨rfl, rfl⟩
  · intro cur h
    exact Option.noConfusion h
  · exact List.Pairwise.nil
  · intro s hs
    exact absurd hs (List.not_mem_nil s)
  · intro s hs
    exact absurd hs (List.not_mem_nil s)
  · intro cur h
    exact Option.noConfusion h

/-- Executable check of claim C4's hypothesis on consecutive calls. -/
def noSplitChainB : List (Entry × Bool) → Bool
  | [] => true
  | [_] => true
  | a :: b :: s =>
    (!(a.1.key.userKey == b.1.key.userKey) || !b.2) && noSplitChainB (b :: s)

theorem noSplitOnSameUser_of_chainB {calls : List (Entry × Bool)}
    (h : noSplitChainB calls = true) : NoSplitOnSameUser calls := by
  intro p
  induction p generalizing calls with
  | nil =>
    intro a b s hdec heq
    subst hdec
    rw [List.nil_append] at h
    unfold noSplitChainB at h
    simp only [Bool.and_eq_true, Bool.or_eq_true, Bool.not_eq_true', beq_eq_false_iff_ne,
      Bool.not_eq_true] at h
    rcases h.1 with h1 | h1
    · exact absurd heq h1
    · exact h1
  | cons x p ih =>
    intro a b s hdec heq
    subst hdec
    rw [List.cons_append] at h
    have h2 : noSplitChainB (p ++ a :: b :: s) = true := by
      cases hp : p ++ a :: b :: s with
      | nil => exact absurd hp (List.append_ne_nil_of_right_ne_nil _ (List.cons_ne_nil _ _))
      | cons y t =>
        rw [hp] at h
        unfold noSplitChainB at h
        exact ((Bool.and_eq_true _ _).mp h).2
    exact ih h2 a b s rfl heq

theorem noUserKeyRevisit_of_const {calls : List (Entry × Bool)} (u : List Nat)
    (h : ∀ x ∈ calls, x.1.key.userKey = u) : NoUserKeyRevisit calls := by
  intro p a c s hdec hne
  exfalso
  subst hdec
  refine hne ((h a ?_).trans (h c ?_).symm) <;> simp

theorem c4_no_shared_user_key_witness :
    List.Pairwise ukDisjoint (runBuilder (fun _ => true)
      [(⟨⟨[107], 5⟩, .put [1]⟩, true), (⟨⟨[107], 4⟩, .put [2]⟩, false)]) :=
  c4_no_shared_user_key (fun _ => true)
    [(⟨⟨[107], 5⟩, .put [1]⟩, true), (⟨⟨[107], 4⟩, .put [2]⟩, false)]
    (noSplitOnSameUser_of_chainB (by decide))
    (noUserKeyRevisit_of_const [107] (by decide))

/-- Claim C4 as stated is refuted: a user key that recurs after an intervening different user
key can end up in two SSTs even though `allow_split` is false on every call that shares its user
key with the previously added key — the seal between the two occurrences already separated
them. -/
theorem c4_counterexample :
    NoSplitOnSameUser
        [(⟨⟨[107], 5⟩, .put [1]⟩, true), (⟨⟨[106], 4⟩, .put [2]⟩, true),
          (⟨⟨[107], 3⟩, .put [3]⟩, false)] ∧
    runBuilder (fun _ => true)
        [(⟨⟨[107], 5⟩, .put [1]⟩, true), (⟨⟨[106], 4⟩, .put [2]⟩, true),
          (⟨⟨[107], 3⟩, .put [3]⟩, false)]
      = [[⟨⟨[107], 5⟩, .put [1]⟩], [⟨⟨[106], 4⟩, .put [2]⟩, ⟨⟨[107], 3⟩, .put [3]⟩]] ∧
    ¬ List.Pairwise ukDisjoint (runBuilder (fun _ => true)
        [(⟨⟨[107], 5⟩, .put [1]⟩, true), (⟨⟨[106], 4⟩, .put [2]⟩, true),
          (⟨⟨[107], 3⟩, .put [3]⟩, false)]) := by
  exact ⟨noSplitOnSameUser_of_chainB (by decide), by decide, by decide⟩

/-- Outcome of awaiting one spawned sub-task in `Compactor::compact`: the inner
`HummockResult<CompactOutput>` (split index and output SSTs, the latter kept as ids), the inner
error case, or a `JoinError` (the sub-task panicked or was cancelled), on which the worker's
`future_result.unwrap()` itself panics. -/
inductive SubTaskOutcome where
  | ok (splitIndex : Nat) (ssts : List Nat)
  | err
  | panicked
deriving DecidableEq, Repr

/-- Did the sub-task succeed? -/
def SubTaskOutcome.isOk : SubTaskOutcome → Bool
  | .ok _ _ => true
  | .err => false
  | .panicked => false

/-- The `while let Some(future_result) = buffered.next()` loop: collect outputs in completion
order, flip `compact_success` on an inner error, and panic (return `none`) on a `JoinError`. -/
def collectResults : List SubTaskOutcome → Option (Bool × List (Nat × List Nat))
  | [] => some (true, [])
  | .ok i ssts :: rest =>
    (collectResults rest).map (fun p => (p.1, (i, ssts) :: p.2))
  | .err :: rest =>
    (collectResults rest).map (fun p => (false, p.2))
  | .panicked :: _ => none

/-- `output_ssts.sort_by_key(split_index)`: insertion sort by the split index. -/
def insertBySplit (x : Nat × List Nat) : List (Nat × List Nat) → List (Nat × List Nat)
  | [] => [x]
  | y :: t => if x.1 ≤ y.1 then x :: y :: t else y :: insertBySplit x t

def sortBySplit : List (Nat × List Nat) → List (Nat × List Nat)
  | [] => []
  | x :: t => insertBySplit x (sortBySplit t)

/-- Observable outcome of one `Compactor::compact` call: whether and with which
`task_status`/outputs `report_compaction_task` was invoked, and the returned boolean
(`none` when `compact` itself panicked on `unwrap`). -/
structure CompactRunResult where
  reported : Option (Bool × List (Nat × List Nat))
  returned : Option Bool
deriving DecidableEq, Repr

/-- Control flow of `Compactor::compact` over one task, abstracted over its environment:
`watermarkOk` is whether `add_watermark_sst_id` succeeded, `schedOk` the per-split results of
`request_execution`, and `outcomes` the awaited sub-task results in completion order.  A failed
watermark registration or scheduling returns `false` without reporting; a `JoinError` propagates
as a panic; otherwise the collected outputs are sorted by split index and reported with
`task_status = compact_success`, which is also the return value.  The stats, cache eviction and
the report RPC's own (swallowed) error are omitted. -/
def compactRun (watermarkOk : Bool) (schedOk : List Bool) (outcomes : List SubTaskOutcome) :
    CompactRunResult :=
  if !watermarkOk then ⟨none, some false⟩
  else if schedOk.any (fun b => !b) then ⟨none, some false⟩
  else
    match collectResults outcomes with
    | none => ⟨none, none⟩
    | some p => ⟨some (p.1, sortBySplit p.2), some p.1⟩

/-- The successfully collected outputs, in completion order. -/
def okOutputs : List SubTaskOutcome → List (Nat × List Nat)
  | [] => []
  | .ok i ssts :: rest => (i, ssts) :: okOutputs rest
  | _ :: rest => okOutputs rest

theorem collectResults_no_panic (outcomes : List SubTaskOutcome)
    (h : SubTaskOutcome.panicked ∉ outcomes) :
    collectResults outcomes = some (outcomes.all SubTaskOutcome.isOk, okOutputs outcomes) := by
  induction outcomes with
  | nil => rfl
  | cons o rest ih =>
    have hrest : SubTaskOutcome.panicked ∉ rest := fun hm => h (List.mem_cons_of_mem _ hm)
    cases o with
    | ok i ssts =>
      simp [collectResults, okOutputs, ih hrest, List.all_cons, SubTaskOutcome.isOk]
    | err =>
      simp [collectResults, okOutputs, ih hrest, List.all_cons, SubTaskOutcome.isOk]
    | panicked => exact absurd (List.mem_cons_self _ _) h

/-- Claim C5 (amended): when watermark registration and scheduling succeed and no sub-task
panicked or was cancelled, `Compactor::compact` reports the task back with
`task_status = compact_success` together with all collected sibling outputs sorted by split
index — an inner sub-task failure flips `compact_success` but does not stop collection — and
returns `compact_success`, which is false exactly when some sub-task failed. -/
theorem c5_compact_always_reports (schedOk : List Bool) (outcomes : List SubTaskOutcome)
    (hs : schedOk.all (fun b => b) = true)
    (hp : SubTaskOutcome.panicked ∉ outcomes) :
    compactRun true schedOk outcomes =
      ⟨some (outcomes.all SubTaskOutcome.isOk, sortBySplit (okOutputs outcomes)),
        some (outcomes.all SubTaskOutcome.isOk)⟩ := by
  unfold compactRun
  rw [collectResults_no_panic outcomes hp]
  have hany : schedOk.any (fun b => !b) = false := by
    rw [List.any_eq_false]
    intro b hb
    rw [List.all_eq_true] at hs
    simp [hs b hb]
  simp [hany]

theorem c5_compact_always_reports_witness :
    compactRun true [true, true] [.err, .ok 0 [11]] =
      ⟨some (false, [(0, [11])]), some false⟩ :=
  c5_compact_always_reports [true, true] [.err, .ok 0 [11]] (by decide) (by decide)

/-- Claim C5 as stated is refuted: a sub-task panic (or cancellation) makes the worker's
`future_result.unwrap()` panic, so nothing is reported to the manager and `false` is never
returned; likewise a scheduling failure returns `false` without reporting. -/
theorem c5_counterexample :
    compactRun true [true] [.panicked] = ⟨none, none⟩ ∧
    compactRun true [false] [] = ⟨none, some false⟩ := by
  decide

/-- The fields of `HummockVersion` read by the local version cache; the level contents are
irrelevant to the claims on `local_version.rs` and omitted. -/
structure HummockVersionM where
  id : Nat
  max_committed_epoch : Nat
  safe_epoch : Nat
deriving DecidableEq, Repr

/-- A per-epoch `SharedBuffer`; its contents are opaque to these claims. -/
structure SharedBufferM where
  payload : Nat
deriving DecidableEq, Repr

/-- State of the unbounded mpsc unpin channel: the queued version ids, or closed. -/
inductive ChannelState where
  | opened (msgs : List Nat)
  | closed
deriving DecidableEq, Repr

/-- `PinnedVersion`; its `unpin_worker_tx` sender is modelled by passing the channel state to
the drop handler explicitly. -/
structure PinnedVersion where
  version : HummockVersionM
deriving DecidableEq, Repr

/-- `impl Drop for PinnedVersion`: `self.unpin_worker_tx.send(self.version.id).ok()` — enqueue
the version id; `.ok()` swallows the send error of a closed channel. -/
def pinnedVersionDrop (pv : PinnedVersion) (ch : ChannelState) : ChannelState :=
  match ch with
  | .opened msgs => .opened (msgs ++ [pv.version.id])
  | .closed => .closed

/-- `LocalVersion`: the `BTreeMap` shared buffer is an epoch-sorted association list, the
`BTreeSet` of version ids in use is a duplicate-free list maintained by `insert`. -/
structure LocalVersion where
  shared_buffer : List (Nat × SharedBufferM)
  pinned_version : HummockVersionM
  version_ids_in_use : List Nat
deriving DecidableEq, Repr

/-- `LocalVersion::set_pinned_version`: when the new version advances `max_committed_epoch`,
collect and drop every shared-buffer epoch at or below it; always record the new id and install
the new pinned version.  Returns the new state together with the cleaned epochs. -/
def set_pinned_version (lv : LocalVersion) (new_pinned_version : HummockVersionM) :
    LocalVersion × List Nat :=
  let cleaned_epoch :=
    if lv.pinned_version.max_committed_epoch < new_pinned_version.max_committed_epoch then
      (lv.shared_buffer.map Prod.fst).filter
        (fun e => decide (e ≤ new_pinned_version.max_committed_epoch))
    else []
  let shared_buffer2 :=
    if lv.pinned_version.max_committed_epoch < new_pinned_version.max_committed_epoch then
      lv.shared_buffer.filter
        (fun p => decide (new_pinned_version.max_committed_epoch < p.1))
    else lv.shared_buffer
  (⟨shared_buffer2, new_pinned_version,
      lv.version_ids_in_use.insert new_pinned_version.id⟩,
    cleaned_epoch)

/-- The pair a `read_version` call hands back. -/
structure ReadVersion where
  shared_buffer : List SharedBufferM
  pinned_version : HummockVersionM
deriving DecidableEq, Repr

/-- `LocalVersion::read_version`: the pinned version plus, when `read_epoch` reaches the
smallest uncommitted epoch, the range `smallest_uncommitted_epoch ..= read_epoch` of the shared
buffer in reverse (epoch-descending) order. -/
def read_version (lv : LocalVersion) (read_epoch : Nat) : ReadVersion :=
  let smallest_uncommitted_epoch := lv.pinned_version.max_committed_epoch + 1
  ⟨if smallest_uncommitted_epoch ≤ read_epoch then
      ((lv.shared_buffer.filter
          (fun p => decide (smallest_uncommitted_epoch ≤ p.1 ∧ p.1 ≤ read_epoch))).reverse).map
        Prod.snd
    else [],
    lv.pinned_version⟩

/-- Claim C6: `read_version e` returns the current pinned version together with exactly the
shared buffers whose epochs lie in `(max_committed_epoch, e]`, ordered by epoch strictly
descending, provided the shared-buffer map is sorted by epoch (the `BTreeMap` invariant). -/
theorem c6_read_version_snapshot (lv : LocalVersion) (read_epoch : Nat)
    (hsorted : List.Pairwise (fun a b => a.1 < b.1) lv.shared_buffer) :
    (read_version lv read_epoch).pinned_version = lv.pinned_version ∧
    (read_version lv read_epoch).shared_buffer =
      ((lv.shared_buffer.filter
          (fun p => decide (lv.pinned_version.max_committed_epoch < p.1 ∧
            p.1 ≤ read_epoch))).map Prod.snd).reverse ∧
    List.Pairwise (fun a b => b < a)
      (((lv.shared_buffer.filter
          (fun p => decide (lv.pinned_version.max_committed_epoch < p.1 ∧
            p.1 ≤ read_epoch))).map Prod.fst).reverse) := by
  refine ⟨rfl, ?_, ?_⟩
  · unfold read_version
    by_cases h : lv.pinned_version.max_committed_epoch + 1 ≤ read_epoch
    · simp only [h, if_true, List.map_reverse]
      congr 1
    · simp only [h, if_false]
      have hnil : lv.shared_buffer.filter
          (fun p => decide (lv.pinned_version.max_committed_epoch < p.1 ∧
            p.1 ≤ read_epoch)) = [] := by
        rw [List.filter_eq_nil_iff]
        intro p _
        simp only [decide_eq_true_eq, not_and]
        intro hlt hle
        omega
      rw [hnil]
      rfl
  · rw [List.pairwise_reverse, List.pairwise_map]
    exact (hsorted.filter _).imp (fun h => h)

theorem c6_read_version_snapshot_witness :
    (read_version ⟨[(3, ⟨0⟩), (5, ⟨1⟩), (9, ⟨2⟩)], ⟨1, 3, 0⟩, [1]⟩ 5).shared_buffer =
      (([(3, (⟨0⟩ : SharedBufferM)), (5, ⟨1⟩), (9, ⟨2⟩)].filter
          (fun p => decide ((3 : Nat) < p.1 ∧ p.1 ≤ 5))).map Prod.snd).reverse :=
  (c6_read_version_snapshot ⟨[(3, ⟨0⟩), (5, ⟨1⟩), (9, ⟨2⟩)], ⟨1, 3, 0⟩, [1]⟩ 5
    (by decide)).2.1

/-- Claim C7: when the new pinned version advances `max_committed_epoch`, every shared buffer at
or below the new `max_committed_epoch` is removed, exactly the removed epochs are returned, and
the new version is installed. -/
theorem c7_set_pinned_version_advance (lv : LocalVersion) (v : HummockVersionM)
    (hadv : lv.pinned_version.max_committed_epoch < v.max_committed_epoch) :
    (set_pinned_version lv v).1.pinned_version = v ∧
    (set_pinned_version lv v).1.shared_buffer =
      lv.shared_buffer.filter (fun p => decide (v.max_committed_epoch < p.1)) ∧
    (set_pinned_version lv v).2 =
      (lv.shared_buffer.map Prod.fst).filter (fun e => decide (e ≤ v.max_committed_epoch)) ∧
    (∀ p, p ∈ (set_pinned_version lv v).1.shared_buffer ↔
      p ∈ lv.shared_buffer ∧ v.max_committed_epoch < p.1) ∧
    (∀ e, e ∈ (set_pinned_version lv v).2 ↔
      e ∈ lv.shared_buffer.map Prod.fst ∧ e ≤ v.max_committed_epoch) := by
  unfold set_pinned_version
  simp [hadv, List.mem_filter]

theorem c7_set_pinned_version_advance_witness :
    (set_pinned_version ⟨[(2, ⟨0⟩), (4, ⟨1⟩)], ⟨1, 1, 0⟩, [1]⟩ ⟨2, 3, 0⟩).2 =
      (([(2, (⟨0⟩ : SharedBufferM)), (4, ⟨1⟩)].map Prod.fst).filter
        (fun e => decide (e ≤ 3))) :=
  (c7_set_pinned_version_advance ⟨[(2, ⟨0⟩), (4, ⟨1⟩)], ⟨1, 1, 0⟩, [1]⟩ ⟨2, 3, 0⟩
    (by decide)).2.2.1

/-- Claim C10: when the new pinned version does not advance `max_committed_epoch`, no shared
buffer is removed and no epoch is returned, yet the new version is still installed and its id
still recorded in `version_ids_in_use`; the shared-buffer map is the only state left
unchanged. -/
theorem c10_set_pinned_version_no_advance (lv : LocalVersion) (v : HummockVersionM)
    (hle : v.max_committed_epoch ≤ lv.pinned_version.max_committed_epoch) :
    (set_pinned_version lv v).1.shared_buffer = lv.shared_buffer ∧
    (set_pinned_version lv v).2 = [] ∧
    (set_pinned_version lv v).1.pinned_version = v ∧
    v.id ∈ (set_pinned_version lv v).1.version_ids_in_use ∧
    (set_pinned_version lv v).1.version_ids_in_use = lv.version_ids_in_use.insert v.id := by
  unfold set_pinned_version
  simp [Nat.not_lt.mpr hle, List.mem_insert_self]

theorem c10_set_pinned_version_no_advance_witness :
    (set_pinned_version ⟨[(2, ⟨0⟩)], ⟨7, 5, 0⟩, [7]⟩ ⟨8, 5, 0⟩).1.shared_buffer =
        [(2, (⟨0⟩ : SharedBufferM))] ∧
    (8 : Nat) ∈ (set_pinned_version ⟨[(2, ⟨0⟩)], ⟨7, 5, 0⟩, [7]⟩ ⟨8, 5, 0⟩).1.version_ids_in_use
    :=
  ⟨(c10_set_pinned_version_no_advance ⟨[(2, ⟨0⟩)], ⟨7, 5, 0⟩, [7]⟩ ⟨8, 5, 0⟩ (by decide)).1,
    (c10_set_pinned_version_no_advance ⟨[(2, ⟨0⟩)], ⟨7, 5, 0⟩, [7]⟩ ⟨8, 5, 0⟩ (by decide)).2.2.2.1⟩

/-- Claim C8: dropping a `PinnedVersion` posts exactly one unpin message, carrying that
version's id, onto the unpin channel; a send error because the channel is closed is swallowed
(the drop handler still returns normally, leaving the channel closed). -/
theorem c8_unpin_on_drop (pv : PinnedVersion) (msgs : List Nat) :
    pinnedVersionDrop pv (.opened msgs) = .opened (msgs ++ [pv.version.id]) ∧
    pinnedVersionDrop pv .closed = .closed :=
  ⟨rfl, rfl⟩

/-- The only fact about a `DataType` these claims use: whether its memcomparable encoding
coincides with its value encoding (`DataType::mem_cmp_eq_value_enc`). -/
structure DataTypeM where
  mem_cmp_eq_value_enc : Bool
deriving DecidableEq, Repr, Inhabited

/-- `ColumnDesc`: only the data type matters to these claims. -/
structure ColumnDescM where
  data_type : DataTypeM
deriving DecidableEq, Repr, Inhabited

/-- A datum is opaque to the serializer wrapper; a row is its list of datums
(`Row(Vec<Datum>)`). -/
abbrev RowM := List (Option Nat)

/-- Modelled from the spec: `CellBasedRowSerializer` (its source file
`cell_based_row_serializer.rs` is not among the embedded sources; the spec names it only as the
underlying cell-based serializer that the dedup serializer delegates to, constructed from the
projected column ids).  Its behaviour is modelled abstractly as recording the column ids it was
constructed from together with the pk and row it serializes. -/
structure CellBasedRowSerializer where
  column_ids : List Int
deriving DecidableEq, Repr

/-- Modelled from the spec: the delegation target of `serialize`. -/
def CellBasedRowSerializer.serialize (s : CellBasedRowSerializer) (pk : List Nat)
    (row : RowM) : List Int × List Nat × RowM :=
  (s.column_ids, pk, row)

/-- `filter_by_dedup_datum_indices`: keep the items whose position is in the dedup set. -/
def filter_by_dedup_datum_indices {α : Type} (dedup : List Nat) (l : List α) : List α :=
  ((l.enum).filter (fun p => dedup.contains p.1)).map Prod.snd

/-- `DedupPkCellBasedRowSerializer`: the dedup positions plus the inner serializer. -/
structure DedupPkCellBasedRowSerializer where
  dedup_datum_indices : List Nat
  inner : CellBasedRowSerializer
deriving DecidableEq, Repr

/-- `DedupPkCellBasedRowSerializer::new`: dedup positions are the column positions not in the
pk, or whose data type's memcomparable encoding differs from its value encoding (the `HashSet`
is kept as the filtered index list — only membership is ever used); the inner serializer is
built from the column ids projected to those positions. -/
def DedupPkCellBasedRowSerializer.new (pk_indices : List Nat)
    (column_descs : List ColumnDescM) (column_ids : List Int) :
    DedupPkCellBasedRowSerializer :=
  let dedup_datum_indices := (List.range column_descs.length).filter
    (fun i => !(pk_indices.contains i)
      || !((column_descs.getD i default).data_type.mem_cmp_eq_value_enc))
  ⟨dedup_datum_indices,
    ⟨filter_by_dedup_datum_indices dedup_datum_indices column_ids⟩⟩

/-- `serialize`: remove the dup pk datums, then delegate to the inner serializer. -/
def DedupPkCellBasedRowSerializer.serialize (s : DedupPkCellBasedRowSerializer)
    (pk : List Nat) (row : RowM) : List Int × List Nat × RowM :=
  s.inner.serialize pk (filter_by_dedup_datum_indices s.dedup_datum_indices row)

/-- The dedup index set exactly as the spec words it, as a predicate on column positions. -/
def specDedupIndex (pk_indices : List Nat) (column_descs : List ColumnDescM) (i : Nat) :
    Bool :=
  decide (i < column_descs.length) &&
    (!(pk_indices.contains i)
      || !((column_descs.getD i default).data_type.mem_cmp_eq_value_enc))

/-- Projection of a list to the spec's dedup index set, in original order. -/
def specProject {α : Type} (pk_indices : List Nat) (column_descs : List ColumnDescM)
    (l : List α) : List α :=
  ((l.enum).filter (fun p => specDedupIndex pk_indices column_descs p.1)).map Prod.snd


theorem dedup_contains_eq (pk_indices : List Nat) (column_descs : List ColumnDescM)
    (column_ids : List Int) (i : Nat) :
    (DedupPkCellBasedRowSerializer.new pk_indices column_descs
        column_ids).dedup_datum_indices.contains i
      = specDedupIndex pk_indices column_descs i := by
  unfold DedupPkCellBasedRowSerializer.new specDedupIndex
  by_cases h : i < column_descs.length
  · simp [List.mem_filter, h]
  · simp [List.mem_filter, h]

theorem filter_by_dedup_eq_specProject {α : Type} (pk_indices : List Nat)
    (column_descs : List ColumnDescM) (column_ids : List Int) (l : List α) :
    filter_by_dedup_datum_indices
        (DedupPkCellBasedRowSerializer.new pk_indices column_descs
          column_ids).dedup_datum_indices l
      = specProject pk_indices column_descs l := by
  unfold filter_by_dedup_datum_indices specProject
  congr 1
  refine List.filter_congr ?_
  intro p _
  exact dedup_contains_eq pk_indices column_descs column_ids p.1

/-- Claim C9: `DedupPkCellBasedRowSerializer::new` computes the dedup positions as exactly the
column positions `i` with `i ∉ pk_indices` or `mem_cmp_eq_value_enc = false`, and `serialize`
equals the underlying cell-based serializer constructed from the column ids projected to that
set, applied to the row projected to that set in original column order. -/
theorem c9_dedup_pk_serializer (pk_indices : List Nat) (column_descs : List ColumnDescM)
    (column_ids : List Int) (pk : List Nat) (row : RowM) :
    (∀ i, i ∈ (DedupPkCellBasedRowSerializer.new pk_indices column_descs
          column_ids).dedup_datum_indices ↔
        (i < column_descs.length ∧
          (i ∉ pk_indices ∨
            (column_descs.getD i default).data_type.mem_cmp_eq_value_enc = false))) ∧
    (DedupPkCellBasedRowSerializer.new pk_indices column_descs column_ids).serialize pk row
      = CellBasedRowSerializer.serialize
          ⟨specProject pk_indices column_descs column_ids⟩ pk
          (specProject pk_indices column_descs row) := by
  constructor
  · intro i
    unfold DedupPkCellBasedRowSerializer.new
    simp [List.mem_filter]
  · have h1 : (DedupPkCellBasedRowSerializer.new pk_indices column_descs
        column_ids).inner.column_ids
        = filter_by_dedup_datum_indices
            (DedupPkCellBasedRowSerializer.new pk_indices column_descs
              column_ids).dedup_datum_indices column_ids := rfl
    unfold DedupPkCellBasedRowSerializer.serialize CellBasedRowSerializer.serialize
    rw [h1, filter_by_dedup_eq_specProject, filter_by_dedup_eq_specProject]
